import Mathlib

set_option maxRecDepth 4000

namespace Btrfs

/-! Shallow embedding of btrfs-corrupt-block.c.

The extent tree is modelled as a single sorted leaf: a list of items.  The
collaborator btrfs_search_slot is modelled by an insertion-point search over
that list ("find nearest less-or-equal" semantics, as the B-tree provides on a
sorted leaf).  Machine integers are Nat; u64/u8 bounds appear as hypotheses
where they matter.  Ghost event lists record the externally visible actions
(searches, key read-backs, transaction commit, filesystem close). -/

/-- Key of a metadata record, struct btrfs_key read into CPU order:
(objectid, type, offset), compared objectid-major. -/
structure ItemKey where
  objectid : Nat
  type : Nat
  offset : Nat
deriving DecidableEq, Repr

/-- One leaf item: its key plus its payload bytes (the item body of
item_size bytes starting at btrfs_item_ptr_offset). -/
structure Item where
  key : ItemKey
  payload : List Nat
deriving DecidableEq, Repr

/-- Strict key order, objectid-major then type then offset, as btrfs_comp_keys. -/
def keyLtb (a b : ItemKey) : Bool :=
  decide (a.objectid < b.objectid) ||
  (decide (a.objectid = b.objectid) &&
    (decide (a.type < b.type) ||
      (decide (a.type = b.type) && decide (a.offset < b.offset))))

/- The six recognized extent-reference key type codes.  The numeric values come
from ctree.h (not under src/); only their mutual distinctness matters to any
claim, the membership test itself is lines 139-144 of btrfs-corrupt-block.c. -/

def BTRFS_EXTENT_ITEM_KEY : Nat := 168

def BTRFS_TREE_BLOCK_REF_KEY : Nat := 176

def BTRFS_EXTENT_DATA_REF_KEY : Nat := 178

def BTRFS_EXTENT_REF_V0_KEY : Nat := 180

def BTRFS_SHARED_BLOCK_REF_KEY : Nat := 182

def BTRFS_SHARED_DATA_REF_KEY : Nat := 184

/-- The type test of corrupt_extent lines 139-144: true exactly for the six
recognized extent-reference kinds. -/
def isExtentRefType (t : Nat) : Bool :=
  decide (t = BTRFS_EXTENT_ITEM_KEY) || decide (t = BTRFS_TREE_BLOCK_REF_KEY) ||
  decide (t = BTRFS_EXTENT_DATA_REF_KEY) || decide (t = BTRFS_EXTENT_REF_V0_KEY) ||
  decide (t = BTRFS_SHARED_BLOCK_REF_KEY) || decide (t = BTRFS_SHARED_DATA_REF_KEY)

/-- Insertion point of key k in the (sorted) leaf: index of the first item
whose key is not below k. -/
def lowerBound (items : List Item) (k : ItemKey) : Nat :=
  match items with
  | [] => 0
  | it :: rest => if keyLtb it.key k then lowerBound rest k + 1 else 0

/-- Model of btrfs_search_slot on one leaf: result (ret, slot).  ret = 0 with
slot at an exact match, else ret = 1 with slot at the insertion point (the C
convention: ret > 0 means not found, path->slots[0] is where the key would be
inserted). -/
def searchSlot (items : List Item) (k : ItemKey) : Int × Nat :=
  let s := lowerBound items k
  match items[s]? with
  | some it => if it.key = k then (0, s) else (1, s)
  | none => (1, s)

/-- Slot adjustment of corrupt_extent lines 128-132: on a non-exact search
result the cursor backs up one slot to the nearest preceding record. -/
def chooseSlot (ret : Int) (slot0 : Nat) : Nat :=
  if 0 < ret then slot0 - 1 else slot0

/-- Ghost events of one corrupt_extent run. -/
inductive EEvent where
  | searchE (k : ItemKey) (ret : Int)
  | visitE (slot : Nat) (k : ItemKey)
  | commitE
  | closeE
deriving DecidableEq, Repr

/-- True exactly on the transaction-commit event. -/
def isCommit (e : EEvent) : Bool :=
  match e with
  | EEvent.commitE => true
  | _ => false

/-- Outcome of the scan: final leaf items, the slots that were zeroed and
marked dirty (memset_extent_buffer + btrfs_mark_buffer_dirty), and the events. -/
structure ScanResult where
  items : List Item
  dirtied : List Nat
  events : List EEvent
deriving DecidableEq, Repr

/-- Zero an item's payload in place (memset of item_size bytes at the item
pointer); the key is untouched. -/
def zeroItem (it : Item) : Item :=
  ⟨it.key, List.replicate it.payload.length 0⟩

/-- Zero the payload of the item in a given slot. -/
def zeroAt : List Item → Nat → List Item
  | [], _ => []
  | it :: rest, 0 => zeroItem it :: rest
  | it :: rest, s + 1 => it :: zeroAt rest s

/-- End-of-iteration key step of corrupt_extent lines 157-160:
if (key.offset > 0) key.offset--; if (key.offset == 0) break.
none means the loop breaks; some k2 means the loop continues with k2. -/
def stepKey (k : ItemKey) : Option ItemKey :=
  let o := k.offset - 1
  if o = 0 then none else some ⟨k.objectid, k.type, o⟩

/-- The while(1) scan of corrupt_extent lines 122-161.  fails models a
negative return of btrfs_search_slot (ret < 0: end the scan at once).  Fuel
makes the model total; scanLoop returns none only on fuel exhaustion or on an
out-of-range slot, neither of which happens in any run proved below. -/
def scanLoop (fails : ItemKey → Bool) (bytenr : Nat) :
    Nat → ItemKey → List Item → List Nat → Option ScanResult
  | 0, _, _, _ => none
  | fuel + 1, key, items, dirtied =>
    if fails key then
      some ⟨items, dirtied, [EEvent.searchE key (-1)]⟩
    else
      let ret := (searchSlot items key).1
      let slot0 := (searchSlot items key).2
      if 0 < ret ∧ slot0 = 0 then
        some ⟨items, dirtied, [EEvent.searchE key ret]⟩
      else
        let slot := chooseSlot ret slot0
        match items[slot]? with
        | none => none
        | some it =>
          if it.key.objectid ≠ bytenr then
            some ⟨items, dirtied, [EEvent.searchE key ret, EEvent.visitE slot it.key]⟩
          else
            let items2 := if isExtentRefType it.key.type then zeroAt items slot else items
            let dirtied2 := if isExtentRefType it.key.type then dirtied ++ [slot] else dirtied
            match stepKey it.key with
            | none =>
              some ⟨items2, dirtied2, [EEvent.searchE key ret, EEvent.visitE slot it.key]⟩
            | some key2 =>
              match scanLoop fails bytenr fuel key2 items2 dirtied2 with
              | none => none
              | some r =>
                some ⟨r.items, r.dirtied,
                  EEvent.searchE key ret :: EEvent.visitE slot it.key :: r.events⟩

/-- Initial search key of corrupt_extent lines 118-120: objectid = bytenr,
type = (u8)-1 = 255, offset = (u64)-1. -/
def initialKey (bytenr : Nat) : ItemKey :=
  ⟨bytenr, 255, 2 ^ 64 - 1⟩

/-- Termination measure of a search key (objectid is constant while the loop
continues, so type-major then offset suffices). -/
def measureKey (k : ItemKey) : Nat :=
  k.type * 2 ^ 64 + k.offset

/-- Fuel strictly above the measure of any initial key. -/
def initFuel : Nat := 255 * 2 ^ 64 + 2 ^ 64

/-- corrupt_extent lines 104-168: run the scan, then free the path, commit the
transaction and close the filesystem (commit/close appear as trailing events,
on every path out of the loop). -/
def corrupt_extent (fails : ItemKey → Bool) (items : List Item) (bytenr : Nat) :
    Option ScanResult :=
  match scanLoop fails bytenr initFuel (initialKey bytenr) items [] with
  | none => none
  | some r => some ⟨r.items, r.dirtied, r.events ++ [EEvent.commitE, EEvent.closeE]⟩

/-- Events of an optional scan result (empty when absent). -/
def eventsOfE (o : Option ScanResult) : List EEvent :=
  match o with
  | none => []
  | some r => r.events

/-- Offsets of the keys handed to the tree search, in order. -/
def searchOffsets (evs : List EEvent) : List Nat :=
  evs.filterMap fun e =>
    match e with
    | EEvent.searchE k _ => some k.offset
    | _ => none

/-- Within an event list, any key read-back (visit) whose objectid differs
from the target bytenr is terminal: only the given tail may follow it.  The
scan loop itself has tail [] (nothing follows); a whole corrupt_extent run has
tail [commitE, closeE] (the unconditional commit and close). -/
def badVisitUpTo (bytenr : Nat) (tail : List EEvent) : List EEvent → Prop
  | [] => True
  | EEvent.visitE _ k :: rest =>
      (k.objectid = bytenr ∨ rest = tail) ∧ badVisitUpTo bytenr tail rest
  | _ :: rest => badVisitUpTo bytenr tail rest

/-! The mirror corrupter, debug_corrupt_block lines 35-84.  The collaborators
btrfs_map_block / btrfs_num_copies are modelled by a per-call world: the
logical address and block length are fixed for the whole call (eb->start and
eb->len never change), so the stripe of mirror m and the copy count are
functions of m alone.  The disk is a map from physical location (device fd,
physical byte offset) to block content.  Read/write/fsync outcomes are ghost
events carrying an ok flag; the C code assigns the read return to ret but
never tests it and ignores the write return entirely, so failures change no
control flow — only a btrfs_map_block failure (BUG_ON) or a failed
btrfs_find_create_tree_block aborts, modelled as none. -/

/-- Per-call environment of one debug_corrupt_block run. -/
structure MWorld where
  stripeOf : Nat → Option (Nat × Nat)
  numCopies : Nat
  readFails : Nat × Nat → Bool
  writeFails : Nat × Nat → Bool
  allocOk : Bool

/-- Ghost events of one debug_corrupt_block run. -/
inductive MEvent where
  | mapE (mirror devFd phys : Nat)
  | readE (mirror devFd phys : Nat) (ok : Bool)
  | writeE (mirror devFd phys : Nat) (ok : Bool)
  | fsyncE (mirror devFd : Nat)
deriving DecidableEq, Repr

/-- The while(1) loop of debug_corrupt_block lines 51-82.  One iteration:
map the block at the current mirror number (BUG_ON failure = none), bind the
buffer to the stripe, log the diagnostic; if copy is 0 or equals the mirror
number, read the block, memset the whole buffer to zero, write it back and
fsync (a failed write leaves the disk unchanged; nothing checks either
return); re-query num_copies, stop if it is 1, else advance the mirror number
and stop once it exceeds num_copies. -/
def mirrorLoop (w : MWorld) (len copy : Nat) :
    Nat → Nat → (Nat × Nat → List Nat) →
    Option (List MEvent × (Nat × Nat → List Nat))
  | 0, _, _ => none
  | fuel + 1, mirrorNum, disk =>
    match w.stripeOf mirrorNum with
    | none => none
    | some (dev, phys) =>
      let evC :=
        if copy = 0 ∨ mirrorNum = copy then
          [MEvent.readE mirrorNum dev phys (!w.readFails (dev, phys)),
           MEvent.writeE mirrorNum dev phys (!w.writeFails (dev, phys)),
           MEvent.fsyncE mirrorNum dev]
        else []
      let disk2 :=
        if (copy = 0 ∨ mirrorNum = copy) ∧ ¬w.writeFails (dev, phys) then
          fun q => if q = (dev, phys) then List.replicate len 0 else disk q
        else disk
      if w.numCopies = 1 then
        some (MEvent.mapE mirrorNum dev phys :: evC, disk2)
      else if w.numCopies < mirrorNum + 1 then
        some (MEvent.mapE mirrorNum dev phys :: evC, disk2)
      else
        match mirrorLoop w len copy fuel (mirrorNum + 1) disk2 with
        | none => none
        | some (evs, dfin) =>
          some (MEvent.mapE mirrorNum dev phys :: (evC ++ evs), dfin)

/-- debug_corrupt_block lines 35-84: allocate the tree-block buffer (none on
failure) and run the mirror loop from mirror number 1. -/
def debug_corrupt_block (w : MWorld) (disk0 : Nat × Nat → List Nat)
    (blocksize copy : Nat) :
    Option (List MEvent × (Nat × Nat → List Nat)) :=
  if w.allocOk then mirrorLoop w blocksize copy (w.numCopies + 2) 1 disk0
  else none

/-- Events of an optional mirror run (empty when absent). -/
def eventsOfM (o : Option (List MEvent × (Nat × Nat → List Nat))) :
    List MEvent :=
  match o with
  | none => []
  | some p => p.1

/-- Events of one iteration of the mirror loop, in closed form. -/
def stepEvents (w : MWorld) (copy m : Nat) : List MEvent :=
  match w.stripeOf m with
  | none => []
  | some (dev, phys) =>
    MEvent.mapE m dev phys ::
      (if copy = 0 ∨ m = copy then
        [MEvent.readE m dev phys (!w.readFails (dev, phys)),
         MEvent.writeE m dev phys (!w.writeFails (dev, phys)),
         MEvent.fsyncE m dev]
      else [])

/-- Disk after one iteration of the mirror loop, in closed form. -/
def stepDisk (w : MWorld) (len copy m : Nat) (disk : Nat × Nat → List Nat) :
    Nat × Nat → List Nat :=
  match w.stripeOf m with
  | none => disk
  | some (dev, phys) =>
    if (copy = 0 ∨ m = copy) ∧ ¬w.writeFails (dev, phys) then
      fun q => if q = (dev, phys) then List.replicate len 0 else disk q
    else disk

/-- Events of n iterations of the mirror loop starting at mirror m. -/
def runEvents (w : MWorld) (copy : Nat) : Nat → Nat → List MEvent
  | _, 0 => []
  | m, n + 1 => stepEvents w copy m ++ runEvents w copy (m + 1) n

/-- Disk after n iterations of the mirror loop starting at mirror m. -/
def runDisk (w : MWorld) (len copy : Nat) :
    Nat → Nat → (Nat × Nat → List Nat) → Nat × Nat → List Nat
  | _, 0, disk => disk
  | m, n + 1, disk => runDisk w len copy (m + 1) n (stepDisk w len copy m disk)

/-- Mirror numbers of the map (block-to-stripe resolution) events, in order. -/
def mapMirrors (evs : List MEvent) : List Nat :=
  evs.filterMap fun e =>
    match e with
    | MEvent.mapE m _ _ => some m
    | _ => none

/-- Mirror numbers of the physical-read events, in order. -/
def readMirrors (evs : List MEvent) : List Nat :=
  evs.filterMap fun e =>
    match e with
    | MEvent.readE m _ _ _ => some m
    | _ => none

/-- Mirror numbers of the write-back events, in order. -/
def writeMirrors (evs : List MEvent) : List Nat :=
  evs.filterMap fun e =>
    match e with
    | MEvent.writeE m _ _ _ => some m
    | _ => none

/-- Mirror numbers of the fsync events, in order. -/
def fsyncMirrors (evs : List MEvent) : List Nat :=
  evs.filterMap fun e =>
    match e with
    | MEvent.fsyncE m _ => some m
    | _ => none

/-- The list m, m+1, ..., m+n-1 of mirror numbers in increasing order. -/
def mirrorSeq (m : Nat) : Nat → List Nat
  | 0 => []
  | n + 1 => m :: mirrorSeq (m + 1) n

/-! The operation-selection phase of main, lines 170-242.  The getopt loop
leaves: logical (0 unless a valid -l was given, an -l of 0 having already
exited through print_usage), copy (0 unless -c), eFlagGiven (whether -e was
seen; case 'e' stores 1 into extent_rec), and extentRecInit, the initial
value of the uninitialized local int extent_rec (line 181 declares it without
an initializer, so its value when -e was never given is whatever was on the
stack).  After the loop: no non-option argument, a zero logical address, or a
negative copy each print usage and exit(1) before open_ctree runs; otherwise
the filesystem is opened and exactly one of the two operations runs, chosen
by the final value of extent_rec. -/

/-- Outcome of main's argument checking and operation selection. -/
inductive MainAction where
  | usageExit
  | run (extentOp : Bool) (logical : Nat) (copy : Int)
deriving DecidableEq, Repr

/-- main lines 221-242: the post-getopt checks and the operation dispatch.
usageExit means print_usage ran and the process exited 1 with the filesystem
never opened; run e l c means open_ctree then corrupt_extent (when e) or the
mirror-corruption byte loop (when not e). -/
def mainSelect (argCount : Nat) (logical : Nat) (copy : Int)
    (eFlagGiven : Bool) (extentRecInit : Bool) : MainAction :=
  if argCount = 0 then MainAction.usageExit
  else if logical = 0 then MainAction.usageExit
  else if copy < 0 then MainAction.usageExit
  else MainAction.run (if eFlagGiven then true else extentRecInit) logical copy

/-- Conclusion of the commit-discipline theorem: exactly one commit, placed
with the close after everything else. -/
def CommitsOnce (r : ScanResult) : Prop :=
  List.countP isCommit r.events = 1 ∧
  ∃ pre : List EEvent, r.events = pre ++ [EEvent.commitE, EEvent.closeE] ∧
    List.countP isCommit pre = 0

/-- Conclusion of the only-target-objectid theorem: every dirtied slot held a
record keyed by the target bytenr, and a key read-back outside the target
objectid is followed by nothing but the commit and close. -/
def OnlyTargetObjectid (items0 : List Item) (bytenr : Nat) (r : ScanResult) :
    Prop :=
  (∀ s ∈ r.dirtied, ∃ it : Item, items0[s]? = some it ∧
    it.key.objectid = bytenr) ∧
  badVisitUpTo bytenr [EEvent.commitE, EEvent.closeE] r.events

/-- Conclusion of the zeroed-iff-recognized theorem: each slot is either
untouched and not dirtied, or dirtied with payload zeroed because its record
matched the target and had a recognized extent-reference type; every visited
matching recognized record is dirtied; no key field changes. -/
def ZeroedIffRecognized (items0 : List Item) (bytenr : Nat) (r : ScanResult) :
    Prop :=
  (∀ i : Nat, (i ∉ r.dirtied ∧ r.items[i]? = items0[i]?) ∨
    (i ∈ r.dirtied ∧ ∃ it : Item, items0[i]? = some it ∧
      it.key.objectid = bytenr ∧ isExtentRefType it.key.type = true ∧
      r.items[i]? = some (zeroItem it))) ∧
  (∀ (s : Nat) (kk : ItemKey), EEvent.visitE s kk ∈ r.events →
    kk.objectid = bytenr → isExtentRefType kk.type = true → s ∈ r.dirtied) ∧
  r.items.map Item.key = items0.map Item.key

/-- Conclusion of the all-mirrors theorem: with the copy selector unset, every
mirror 1..num_copies is mapped, read, zero-written and flushed exactly once,
in increasing mirror order. -/
def AllMirrorsOnce (w : MWorld) (disk0 : Nat × Nat → List Nat) (len : Nat) :
    Prop :=
  ∃ dfin, debug_corrupt_block w disk0 len 0 =
      some (runEvents w 0 1 w.numCopies, dfin) ∧
    mapMirrors (runEvents w 0 1 w.numCopies) = mirrorSeq 1 w.numCopies ∧
    readMirrors (runEvents w 0 1 w.numCopies) = mirrorSeq 1 w.numCopies ∧
    writeMirrors (runEvents w 0 1 w.numCopies) = mirrorSeq 1 w.numCopies ∧
    fsyncMirrors (runEvents w 0 1 w.numCopies) = mirrorSeq 1 w.numCopies

/-- Conclusion of the failures-ignored theorem: whatever the read/write
failure pattern, the run completes and still maps and writes every mirror. -/
def IgnoresIOFailures (w : MWorld) (disk0 : Nat × Nat → List Nat) (len : Nat) :
    Prop :=
  ∃ evs dfin, debug_corrupt_block w disk0 len 0 = some (evs, dfin) ∧
    mapMirrors evs = mirrorSeq 1 w.numCopies ∧
    writeMirrors evs = mirrorSeq 1 w.numCopies

/-- Conclusion of the frame theorem: with copy selector k, only the k-th
mirror's physical location changes, to all zero bytes of the block length. -/
def FrameOnlyTarget (w : MWorld) (disk0 : Nat × Nat → List Nat)
    (len k dev phys : Nat) : Prop :=
  ∃ evs, debug_corrupt_block w disk0 len k =
      some (evs, runDisk w len k 1 w.numCopies disk0) ∧
    runDisk w len k 1 w.numCopies disk0 (dev, phys) = List.replicate len 0 ∧
    ∀ q : Nat × Nat, q ≠ (dev, phys) →
      runDisk w len k 1 w.numCopies disk0 q = disk0 q

/-- Sample stripe map: two mirrors on device 3, at physical 100 and 200. -/
def sampleStripe : Nat → Option (Nat × Nat) :=
  fun m => if m = 1 then some (3, 100) else if m = 2 then some (3, 200) else none

/-- Sample world with two healthy mirrors. -/
def wOk : MWorld := ⟨sampleStripe, 2, fun _ => false, fun _ => false, true⟩

/-- Sample world where the physical read of mirror 1 fails. -/
def wReadFail : MWorld :=
  ⟨sampleStripe, 2, fun q => decide (q = (3, 100)), fun _ => false, true⟩

/-- Sample initial disk contents. -/
def disk7 : Nat × Nat → List Nat := fun _ => [7, 7]

/-! Helper lemmas about payload zeroing. -/

theorem zeroItem_key (it : Item) : (zeroItem it).key = it.key := rfl

theorem zeroItem_idem (it : Item) : zeroItem (zeroItem it) = zeroItem it := by
  simp [zeroItem]

theorem zeroAt_map_key (items : List Item) :
    ∀ s : Nat, (zeroAt items s).map Item.key = items.map Item.key := by
  induction items with
  | nil => intro s; rfl
  | cons it rest ih =>
    intro s
    cases s with
    | zero => simp [zeroAt, zeroItem]
    | succ s => simp [zeroAt, ih s]

theorem zeroAt_get_self (items : List Item) :
    ∀ (s : Nat) (it : Item), items[s]? = some it →
      (zeroAt items s)[s]? = some (zeroItem it) := by
  induction items with
  | nil => intro s it h; simp at h
  | cons a rest ih =>
    intro s it h
    cases s with
    | zero =>
      simp only [List.getElem?_cons_zero, Option.some.injEq] at h
      subst h
      simp [zeroAt]
    | succ s =>
      simp only [List.getElem?_cons_succ] at h
      simpa [zeroAt] using ih s it h

theorem badVisitUpTo_nil (b : Nat) (t : List EEvent) : badVisitUpTo b t [] :=
  trivial

theorem badVisitUpTo_search (b : Nat) (t : List EEvent) (k : ItemKey) (ret : Int)
    (rest : List EEvent) :
    badVisitUpTo b t (EEvent.searchE k ret :: rest) = badVisitUpTo b t rest := rfl

theorem badVisitUpTo_commit (b : Nat) (t rest : List EEvent) :
    badVisitUpTo b t (EEvent.commitE :: rest) = badVisitUpTo b t rest := rfl

theorem badVisitUpTo_close (b : Nat) (t rest : List EEvent) :
    badVisitUpTo b t (EEvent.closeE :: rest) = badVisitUpTo b t rest := rfl

theorem badVisitUpTo_visit (b : Nat) (t : List EEvent) (s : Nat) (k : ItemKey)
    (rest : List EEvent) :
    badVisitUpTo b t (EEvent.visitE s k :: rest) =
      ((k.objectid = b ∨ rest = t) ∧ badVisitUpTo b t rest) := rfl

theorem zeroAt_get_ne (items : List Item) :
    ∀ (s i : Nat), i ≠ s → (zeroAt items s)[i]? = items[i]? := by
  induction items with
  | nil => intro s i _; simp [zeroAt]
  | cons a rest ih =>
    intro s i hne
    cases s with
    | zero =>
      cases i with
      | zero => exact absurd rfl hne
      | succ i => simp [zeroAt]
    | succ s =>
      cases i with
      | zero => simp [zeroAt]
      | succ i =>
        simp only [zeroAt, List.getElem?_cons_succ]
        exact ih s i (fun h => hne (by omega))

/-- Master invariant of the extent scan loop: the dirty list grows by slots
that held a matching, recognized record and got their payload zeroed; all
other slots are untouched; every visited matching recognized record is
dirtied; the loop itself never commits; and a visit outside the target
objectid ends the loop. -/
theorem scanLoop_master (fails : ItemKey → Bool) (bytenr : Nat) :
    ∀ (fuel : Nat) (k : ItemKey) (items : List Item) (d : List Nat)
      (r : ScanResult),
      scanLoop fails bytenr fuel k items d = some r →
      ∃ nd : List Nat,
        r.dirtied = d ++ nd ∧
        (∀ i ∈ nd, ∃ it : Item, items[i]? = some it ∧
          it.key.objectid = bytenr ∧ isExtentRefType it.key.type = true ∧
          r.items[i]? = some (zeroItem it)) ∧
        (∀ i : Nat, i ∉ nd → r.items[i]? = items[i]?) ∧
        (∀ (s : Nat) (kk : ItemKey), EEvent.visitE s kk ∈ r.events →
          kk.objectid = bytenr → isExtentRefType kk.type = true →
          s ∈ r.dirtied) ∧
        List.countP isCommit r.events = 0 ∧
        badVisitUpTo bytenr [] r.events := by
  intro fuel
  induction fuel with
  | zero => intro k items d r h; simp [scanLoop] at h
  | succ fuel ih =>
    intro k items d r h
    obtain ⟨ri, rd, re⟩ := r
    simp only [scanLoop] at h
    split at h
    · -- the search failed (ret < 0): break out with nothing new
      simp only [Option.some.injEq, ScanResult.mk.injEq] at h
      obtain ⟨rfl, rfl, rfl⟩ := h
      refine ⟨[], (List.append_nil d).symm, by simp, fun i _ => rfl, ?_, ?_, ?_⟩
      · intro s kk hmem
        simp at hmem
      · simp [isCommit]
      · simp [badVisitUpTo_search, badVisitUpTo_nil]
    · split at h
      · -- ret > 0 and slot 0: walked past the first item, break
        simp only [Option.some.injEq, ScanResult.mk.injEq] at h
        obtain ⟨rfl, rfl, rfl⟩ := h
        refine ⟨[], (List.append_nil d).symm, by simp, fun i _ => rfl, ?_, ?_, ?_⟩
        · intro s kk hmem
          simp at hmem
        · simp [isCommit]
        · simp [badVisitUpTo_search, badVisitUpTo_nil]
      · split at h
        · -- slot out of range (unreachable in real runs)
          exact absurd h (by simp)
        · rename_i it hget
          split at h
          · -- the key read back has a different objectid: break
            rename_i hobj
            simp only [Option.some.injEq, ScanResult.mk.injEq] at h
            obtain ⟨rfl, rfl, rfl⟩ := h
            refine ⟨[], (List.append_nil d).symm, by simp, fun i _ => rfl,
              ?_, ?_, ?_⟩
            · intro s kk hmem hkobj _
              simp only [List.mem_cons, List.mem_singleton] at hmem
              rcases hmem with hmem | hmem
              · exact absurd hmem (by simp)
              · obtain ⟨rfl, rfl⟩ : s = _ ∧ kk = it.key := by
                  simpa using hmem
                exact absurd hkobj hobj
            · simp [isCommit]
            · simp [badVisitUpTo_search, badVisitUpTo_visit, badVisitUpTo_nil]
          · rename_i hobj
            have hobj2 : it.key.objectid = bytenr := by
              by_contra hc
              exact hobj hc
            by_cases ht : isExtentRefType it.key.type = true
            · simp only [if_pos ht] at h
              split at h
              · -- offset reached 0 after the zeroing: break
                simp only [Option.some.injEq, ScanResult.mk.injEq] at h
                obtain ⟨rfl, rfl, rfl⟩ := h
                refine ⟨[chooseSlot (searchSlot items k).1 (searchSlot items k).2],
                  rfl, ?_, ?_, ?_, ?_, ?_⟩
                · intro i hi
                  simp only [List.mem_singleton] at hi
                  subst hi
                  exact ⟨it, hget, hobj2, ht, zeroAt_get_self items _ it hget⟩
                · intro i hi
                  simp only [List.mem_singleton] at hi
                  exact zeroAt_get_ne items _ i hi
                · intro s kk hmem _ _
                  simp only [List.mem_cons, List.mem_singleton] at hmem
                  rcases hmem with hmem | hmem
                  · exact absurd hmem (by simp)
                  · obtain ⟨rfl, rfl⟩ : s = _ ∧ kk = it.key := by
                      simpa using hmem
                    simp
                · simp [isCommit]
                · simp [badVisitUpTo_search, badVisitUpTo_visit,
                    badVisitUpTo_nil, hobj2]
              · -- recognized type, loop continues
                rename_i key2 hstep
                split at h
                · exact absurd h (by simp)
                · rename_i r2 hrec
                  simp only [Option.some.injEq, ScanResult.mk.injEq] at h
                  obtain ⟨rfl, rfl, rfl⟩ := h
                  obtain ⟨nd2, hd2, hin2, hout2, hvis2, hcnt2, hbad2⟩ :=
                    ih key2 (zeroAt items _) (d ++ [_]) r2 hrec
                  refine ⟨chooseSlot (searchSlot items k).1 (searchSlot items k).2
                    :: nd2, ?_, ?_, ?_, ?_, ?_, ?_⟩
                  · rw [hd2]
                    simp
                  · intro i hi
                    simp only [List.mem_cons] at hi
                    rcases hi with rfl | hi
                    · refine ⟨it, hget, hobj2, ht, ?_⟩
                      by_cases hmem :
                        chooseSlot (searchSlot items k).1 (searchSlot items k).2
                          ∈ nd2
                      · obtain ⟨it1, hg1, _, _, hr1⟩ := hin2 _ hmem
                        rw [zeroAt_get_self items _ it hget] at hg1
                        obtain rfl : zeroItem it = it1 := by
                          simpa using hg1
                        rw [hr1, zeroItem_idem]
                      · rw [hout2 _ hmem, zeroAt_get_self items _ it hget]
                    · obtain ⟨it1, hg1, ho1, ht1, hr1⟩ := hin2 i hi
                      by_cases hslot :
                        i = chooseSlot (searchSlot items k).1 (searchSlot items k).2
                      · subst hslot
                        rw [zeroAt_get_self items _ it hget] at hg1
                        obtain rfl : zeroItem it = it1 := by
                          simpa using hg1
                        refine ⟨it, hget, hobj2, ht, ?_⟩
                        rw [hr1, zeroItem_idem]
                      · rw [zeroAt_get_ne items _ i hslot] at hg1
                        exact ⟨it1, hg1, ho1, ht1, hr1⟩
                  · intro i hi
                    simp only [List.mem_cons, not_or] at hi
                    rw [hout2 i hi.2, zeroAt_get_ne items _ i hi.1]
                  · intro s kk hmem hko hkt
                    simp only [List.mem_cons] at hmem
                    rcases hmem with hmem | hmem | hmem
                    · exact absurd hmem (by simp)
                    · obtain ⟨rfl, rfl⟩ : s = _ ∧ kk = it.key := by
                        simpa using hmem
                      rw [hd2]
                      simp
                    · exact hvis2 s kk hmem hko hkt
                  · simp [isCommit, hcnt2]
                  · simp only [badVisitUpTo_search, badVisitUpTo_visit]
                    exact ⟨Or.inl hobj2, hbad2⟩
            · simp only [if_neg ht] at h
              split at h
              · -- unrecognized type, offset reached 0: break
                simp only [Option.some.injEq, ScanResult.mk.injEq] at h
                obtain ⟨rfl, rfl, rfl⟩ := h
                refine ⟨[], (List.append_nil d).symm, by simp, fun i _ => rfl,
                  ?_, ?_, ?_⟩
                · intro s kk hmem _ hkt
                  simp only [List.mem_cons, List.mem_singleton] at hmem
                  rcases hmem with hmem | hmem
                  · exact absurd hmem (by simp)
                  · obtain ⟨rfl, rfl⟩ : s = _ ∧ kk = it.key := by
                      simpa using hmem
                    exact absurd hkt ht
                · simp [isCommit]
                · simp [badVisitUpTo_search, badVisitUpTo_visit,
                    badVisitUpTo_nil, hobj2]
              · -- unrecognized type, loop continues
                rename_i key2 hstep
                split at h
                · exact absurd h (by simp)
                · rename_i r2 hrec
                  simp only [Option.some.injEq, ScanResult.mk.injEq] at h
                  obtain ⟨rfl, rfl, rfl⟩ := h
                  obtain ⟨nd2, hd2, hin2, hout2, hvis2, hcnt2, hbad2⟩ :=
                    ih key2 items d r2 hrec
                  refine ⟨nd2, hd2, hin2, hout2, ?_, ?_, ?_⟩
                  · intro s kk hmem hko hkt
                    simp only [List.mem_cons] at hmem
                    rcases hmem with hmem | hmem | hmem
                    · exact absurd hmem (by simp)
                    · obtain ⟨rfl, rfl⟩ : s = _ ∧ kk = it.key := by
                        simpa using hmem
                      exact absurd hkt ht
                    · exact hvis2 s kk hmem hko hkt
                  · simp [isCommit, hcnt2]
                  · simp only [badVisitUpTo_search, badVisitUpTo_visit]
                    exact ⟨Or.inl hobj2, hbad2⟩

/-- Appending the commit/close tail keeps the bad-visit-terminal property,
with the tail as the only permitted continuation. -/
theorem badVisitUpTo_append_tail (b : Nat) (evs : List EEvent)
    (h : badVisitUpTo b [] evs) :
    badVisitUpTo b [EEvent.commitE, EEvent.closeE]
      (evs ++ [EEvent.commitE, EEvent.closeE]) := by
  induction evs with
  | nil =>
    simp only [List.nil_append, badVisitUpTo_commit, badVisitUpTo_close]
    exact badVisitUpTo_nil _ _
  | cons e rest ih =>
    cases e with
    | searchE k ret =>
      rw [badVisitUpTo_search] at h
      rw [List.cons_append, badVisitUpTo_search]
      exact ih h
    | visitE s k =>
      rw [badVisitUpTo_visit] at h
      rw [List.cons_append, badVisitUpTo_visit]
      refine ⟨?_, ih h.2⟩
      rcases h.1 with h1 | h1
      · exact Or.inl h1
      · subst h1
        exact Or.inr (by simp)
    | commitE =>
      rw [badVisitUpTo_commit] at h
      rw [List.cons_append, badVisitUpTo_commit]
      exact ih h
    | closeE =>
      rw [badVisitUpTo_close] at h
      rw [List.cons_append, badVisitUpTo_close]
      exact ih h

/-- C4: the extent-metadata corrupter commits its transaction exactly once,
after the scan loop ends, regardless of how many records were modified
(including zero); in particular when a tree search returns a negative result
the scan ends early but the transaction is still committed with all mutations
staged so far. -/
theorem corrupt_extent_commits_once (fails : ItemKey → Bool)
    (items : List Item) (bytenr : Nat) (r : ScanResult)
    (h : corrupt_extent fails items bytenr = some r) :
    CommitsOnce r := by
  unfold corrupt_extent at h
  split at h
  · exact absurd h (by simp)
  · rename_i r0 hloop
    simp only [Option.some.injEq] at h
    subst h
    obtain ⟨nd, _, _, _, _, hcnt, _⟩ :=
      scanLoop_master fails bytenr initFuel (initialKey bytenr) items [] r0 hloop
    constructor
    · simp [List.countP_append, List.countP_cons, isCommit, hcnt]
    · exact ⟨r0.events, rfl, hcnt⟩

/-- C4 witness: a run whose very first tree search fails still commits exactly
once, with nothing staged. -/
theorem corrupt_extent_commits_once_witness :
    CommitsOnce ⟨[], [], [EEvent.searchE (initialKey 1) (-1),
      EEvent.commitE, EEvent.closeE]⟩ :=
  corrupt_extent_commits_once (fun _ => true) [] 1
    ⟨[], [], [EEvent.searchE (initialKey 1) (-1),
      EEvent.commitE, EEvent.closeE]⟩ (by decide)

/-- C5: the extent-metadata scan only zeroes records whose key objectid equals
the target bytenr, and as soon as the key read back at the current position
has a different objectid the scan stops without modifying that record: only
the commit and close follow such a visit. -/
theorem corrupt_extent_only_target (fails : ItemKey → Bool)
    (items : List Item) (bytenr : Nat) (r : ScanResult)
    (h : corrupt_extent fails items bytenr = some r) :
    OnlyTargetObjectid items bytenr r := by
  unfold corrupt_extent at h
  split at h
  · exact absurd h (by simp)
  · rename_i r0 hloop
    simp only [Option.some.injEq] at h
    subst h
    obtain ⟨nd, hnd, hin, _, _, _, hbad⟩ :=
      scanLoop_master fails bytenr initFuel (initialKey bytenr) items [] r0 hloop
    constructor
    · intro s hs
      rw [hnd, List.nil_append] at hs
      obtain ⟨it, hg, ho, _, _⟩ := hin s hs
      exact ⟨it, hg, ho⟩
    · exact badVisitUpTo_append_tail bytenr r0.events hbad

/-- C5 witness: scanning bytenr 200 over a leaf that also holds a record for
objectid 100 zeroes only the slot keyed 200 and stops right after reading the
foreign key. -/
theorem corrupt_extent_only_target_witness :
    OnlyTargetObjectid [⟨⟨100, 168, 9⟩, [5]⟩, ⟨⟨200, 168, 2⟩, [6]⟩] 200
      ⟨[⟨⟨100, 168, 9⟩, [5]⟩, ⟨⟨200, 168, 2⟩, [0]⟩], [1],
       [EEvent.searchE (initialKey 200) 1, EEvent.visitE 1 ⟨200, 168, 2⟩,
        EEvent.searchE ⟨200, 168, 1⟩ 1, EEvent.visitE 0 ⟨100, 168, 9⟩,
        EEvent.commitE, EEvent.closeE]⟩ :=
  corrupt_extent_only_target (fun _ => false)
    [⟨⟨100, 168, 9⟩, [5]⟩, ⟨⟨200, 168, 2⟩, [6]⟩] 200
    ⟨[⟨⟨100, 168, 9⟩, [5]⟩, ⟨⟨200, 168, 2⟩, [0]⟩], [1],
     [EEvent.searchE (initialKey 200) 1, EEvent.visitE 1 ⟨200, 168, 2⟩,
      EEvent.searchE ⟨200, 168, 1⟩ 1, EEvent.visitE 0 ⟨100, 168, 9⟩,
      EEvent.commitE, EEvent.closeE]⟩ (by decide)

/-- C8: a visited record is zeroed in place and its block marked dirty exactly
when its key type is one of the six recognized extent-reference kinds; all
other records are unmodified, and the key fields of zeroed records are
unchanged. -/
theorem corrupt_extent_zero_iff_recognized (fails : ItemKey → Bool)
    (items : List Item) (bytenr : Nat) (r : ScanResult)
    (h : corrupt_extent fails items bytenr = some r) :
    ZeroedIffRecognized items bytenr r := by
  unfold corrupt_extent at h
  split at h
  · exact absurd h (by simp)
  · rename_i r0 hloop
    simp only [Option.some.injEq] at h
    subst h
    obtain ⟨nd, hnd, hin, hout, hvis, _, _⟩ :=
      scanLoop_master fails bytenr initFuel (initialKey bytenr) items [] r0 hloop
    rw [List.nil_append] at hnd
    have hdi : ∀ i : Nat, (i ∉ r0.dirtied ∧ r0.items[i]? = items[i]?) ∨
        (i ∈ r0.dirtied ∧ ∃ it : Item, items[i]? = some it ∧
          it.key.objectid = bytenr ∧ isExtentRefType it.key.type = true ∧
          r0.items[i]? = some (zeroItem it)) := by
      intro i
      by_cases hm : i ∈ nd
      · exact Or.inr ⟨hnd ▸ hm, hin i hm⟩
      · exact Or.inl ⟨hnd ▸ hm, hout i hm⟩
    refine ⟨hdi, ?_, ?_⟩
    · intro s kk hmem hko hkt
      simp only [List.mem_append] at hmem
      rcases hmem with hmem | hmem
      · exact hvis s kk hmem hko hkt
      · simp at hmem
    · apply List.ext_getElem?
      intro i
      simp only [List.getElem?_map]
      rcases hdi i with ⟨-, heq⟩ | ⟨-, it, hg, -, -, hr⟩
      · rw [heq]
      · rw [hr, hg]
        rfl

/-- C8 witness: a leaf holding one unrecognized-type record and one
extent-item record for the same objectid gets only the latter zeroed, with
keys intact. -/
theorem corrupt_extent_zero_iff_recognized_witness :
    ZeroedIffRecognized [⟨⟨7, 100, 4⟩, [9, 9]⟩, ⟨⟨7, 168, 5⟩, [8]⟩] 7
      ⟨[⟨⟨7, 100, 4⟩, [9, 9]⟩, ⟨⟨7, 168, 5⟩, [0]⟩], [1],
       [EEvent.searchE (initialKey 7) 1, EEvent.visitE 1 ⟨7, 168, 5⟩,
        EEvent.searchE ⟨7, 168, 4⟩ 1, EEvent.visitE 0 ⟨7, 100, 4⟩,
        EEvent.searchE ⟨7, 100, 3⟩ 1, EEvent.commitE, EEvent.closeE]⟩ :=
  corrupt_extent_zero_iff_recognized (fun _ => false)
    [⟨⟨7, 100, 4⟩, [9, 9]⟩, ⟨⟨7, 168, 5⟩, [8]⟩] 7
    ⟨[⟨⟨7, 100, 4⟩, [9, 9]⟩, ⟨⟨7, 168, 5⟩, [0]⟩], [1],
     [EEvent.searchE (initialKey 7) 1, EEvent.visitE 1 ⟨7, 168, 5⟩,
      EEvent.searchE ⟨7, 168, 4⟩ 1, EEvent.visitE 0 ⟨7, 100, 4⟩,
      EEvent.searchE ⟨7, 100, 3⟩ 1, EEvent.commitE, EEvent.closeE]⟩ (by decide)

/-! Termination of the extent scan: the search key strictly decreases in the
(type, offset) lexicographic order, so the fixed fuel is never exhausted. -/

theorem lowerBound_pred_lt (k : ItemKey) :
    ∀ (items : List Item) (s : Nat), lowerBound items k = s + 1 →
      ∃ it : Item, items[s]? = some it ∧ keyLtb it.key k = true := by
  intro items
  induction items with
  | nil => intro s h; simp [lowerBound] at h
  | cons a rest ih =>
    intro s h
    simp only [lowerBound] at h
    split at h
    · rename_i hlt
      cases s with
      | zero => exact ⟨a, by simp, hlt⟩
      | succ s =>
        obtain ⟨it, hg, hl⟩ := ih s (by omega)
        exact ⟨it, by simpa using hg, hl⟩
    · omega

/-- Whenever the loop does not stop at the walked-past-start check, the chosen
slot holds an item. -/
theorem visited_slot_some (items : List Item) (k : ItemKey)
    (hno : ¬(0 < (searchSlot items k).1 ∧ (searchSlot items k).2 = 0)) :
    ∃ it : Item, items[chooseSlot (searchSlot items k).1
      (searchSlot items k).2]? = some it := by
  rcases hI : items[lowerBound items k]? with - | it0
  · simp only [searchSlot, hI] at hno ⊢
    have hlb : lowerBound items k ≠ 0 := by
      intro h0
      exact hno (by simp [h0])
    obtain ⟨s, hs⟩ : ∃ s, lowerBound items k = s + 1 :=
      ⟨lowerBound items k - 1, by omega⟩
    obtain ⟨it, hg, -⟩ := lowerBound_pred_lt k items s hs
    refine ⟨it, ?_⟩
    simpa [chooseSlot, hs] using hg
  · by_cases hk : it0.key = k
    · simp only [searchSlot, hI, if_pos hk] at hno ⊢
      exact ⟨it0, by simpa [chooseSlot] using hI⟩
    · simp only [searchSlot, hI, if_neg hk] at hno ⊢
      have hlb : lowerBound items k ≠ 0 := by
        intro h0
        exact hno (by simp [h0])
      obtain ⟨s, hs⟩ : ∃ s, lowerBound items k = s + 1 :=
        ⟨lowerBound items k - 1, by omega⟩
      obtain ⟨it, hg, -⟩ := lowerBound_pred_lt k items s hs
      refine ⟨it, ?_⟩
      simpa [chooseSlot, hs] using hg

/-- The key read back at the chosen slot never exceeds the search key: it is
the exact match or the nearest preceding record. -/
theorem visited_key_le (items : List Item) (k : ItemKey) (it : Item)
    (hno : ¬(0 < (searchSlot items k).1 ∧ (searchSlot items k).2 = 0))
    (hget : items[chooseSlot (searchSlot items k).1
      (searchSlot items k).2]? = some it) :
    it.key = k ∨ keyLtb it.key k = true := by
  rcases hI : items[lowerBound items k]? with - | it0
  · simp only [searchSlot, hI] at hno hget
    have hlb : lowerBound items k ≠ 0 := by
      intro h0
      exact hno (by simp [h0])
    obtain ⟨s, hs⟩ : ∃ s, lowerBound items k = s + 1 :=
      ⟨lowerBound items k - 1, by omega⟩
    obtain ⟨it1, hg, hl⟩ := lowerBound_pred_lt k items s hs
    simp only [chooseSlot, hs] at hget
    norm_num at hget
    rw [hget] at hg
    obtain rfl : it = it1 := by simpa using hg
    exact Or.inr hl
  · by_cases hk : it0.key = k
    · simp only [searchSlot, hI, if_pos hk] at hno hget
      simp only [chooseSlot] at hget
      norm_num at hget
      rw [hget] at hI
      obtain rfl : it = it0 := by simpa using hI
      exact Or.inl hk
    · simp only [searchSlot, hI, if_neg hk] at hno hget
      have hlb : lowerBound items k ≠ 0 := by
        intro h0
        exact hno (by simp [h0])
      obtain ⟨s, hs⟩ : ∃ s, lowerBound items k = s + 1 :=
        ⟨lowerBound items k - 1, by omega⟩
      obtain ⟨it1, hg, hl⟩ := lowerBound_pred_lt k items s hs
      simp only [chooseSlot, hs] at hget
      norm_num at hget
      rw [hget] at hg
      obtain rfl : it = it1 := by simpa using hg
      exact Or.inr hl

/-- A strictly smaller key with the same objectid has a measure no larger,
provided both offsets fit in 64 bits. -/
theorem measureKey_le_of_ltb (a b : ItemKey) (hobj : a.objectid = b.objectid)
    (hlt : keyLtb a b = true) (ha : a.offset < 2 ^ 64) :
    measureKey a ≤ measureKey b := by
  simp only [keyLtb, Bool.or_eq_true, Bool.and_eq_true, decide_eq_true_eq] at hlt
  unfold measureKey
  rcases hlt with h | ⟨-, h | ⟨he, h⟩⟩
  · omega
  · have : a.type + 1 ≤ b.type := h
    nlinarith [ha]
  · omega

/-- With all record offsets inside u64 and enough fuel for the measure of the
current key, the scan loop completes. -/
theorem scanLoop_isSome (fails : ItemKey → Bool) (bytenr : Nat) :
    ∀ (fuel : Nat) (k : ItemKey) (items : List Item) (d : List Nat),
      (∀ kk ∈ items.map Item.key, kk.offset < 2 ^ 64) →
      k.objectid = bytenr → k.offset < 2 ^ 64 →
      measureKey k < fuel →
      (scanLoop fails bytenr fuel k items d).isSome = true := by
  intro fuel
  induction fuel with
  | zero => intro k items d _ _ _ hm; omega
  | succ fuel ih =>
    intro k items d hbound hko hkoff hm
    simp only [scanLoop]
    split
    · simp
    · split
      · simp
      · rename_i hno
        obtain ⟨it, hI⟩ := visited_slot_some items k hno
        split
        · rename_i hnone
          rw [hI] at hnone
          exact absurd hnone (by simp)
        · rename_i it2 heq
          rw [hI] at heq
          obtain rfl : it = it2 := by simpa using heq
          split
          · simp
          · rename_i hobj
            have hobj2 : it.key.objectid = bytenr := by
              by_contra hc
              exact hobj hc
            have hitmem : it.key ∈ items.map Item.key :=
              List.mem_map_of_mem Item.key (List.getElem?_mem hI)
            have hitoff : it.key.offset < 2 ^ 64 := hbound it.key hitmem
            have hle : measureKey it.key ≤ measureKey k := by
              rcases visited_key_le items k it hno hI with he | hl
              · rw [he]
              · exact measureKey_le_of_ltb it.key k (by rw [hobj2, hko]) hl hitoff
            split
            · simp
            · rename_i key2 hstep
              simp only [stepKey] at hstep
              split at hstep
              · simp at hstep
              · rename_i hoffpos
                simp only [Option.some.injEq] at hstep
                have hoff2 : 2 ≤ it.key.offset := by omega
                have hko2 : key2.objectid = bytenr := by
                  rw [← hstep]
                  exact hobj2
                have hkoff2 : key2.offset < 2 ^ 64 := by
                  rw [← hstep]
                  show it.key.offset - 1 < 2 ^ 64
                  omega
                have hm2 : measureKey key2 < fuel := by
                  have hmk : measureKey key2 + 1 = measureKey it.key := by
                    rw [← hstep]
                    show it.key.type * 2 ^ 64 + (it.key.offset - 1) + 1 =
                      it.key.type * 2 ^ 64 + it.key.offset
                    omega
                  omega
                have hboundz : ∀ kk ∈ (if isExtentRefType it.key.type then
                    zeroAt items (chooseSlot (searchSlot items k).1
                      (searchSlot items k).2) else items).map Item.key,
                    kk.offset < 2 ^ 64 := by
                  split
                  · rw [zeroAt_map_key]
                    exact hbound
                  · exact hbound
                have hrec := ih key2 (if isExtentRefType it.key.type then
                    zeroAt items (chooseSlot (searchSlot items k).1
                      (searchSlot items k).2) else items)
                  (if isExtentRefType it.key.type then
                    d ++ [chooseSlot (searchSlot items k).1 (searchSlot items k).2]
                    else d) hboundz hko2 hkoff2 hm2
                split
                · rename_i hnone2
                  rw [hnone2] at hrec
                  simp at hrec
                · simp

/-- C6 (amended): the extent-metadata scan terminates on every leaf whose
record offsets fit in u64 (as real u64 keys always do): each continuing
iteration strictly decreases the (type, offset) measure of the search key,
which starts below the fixed fuel.  The offset alone need not decrease, see
the counterexample. -/
theorem corrupt_extent_terminates (fails : ItemKey → Bool)
    (items : List Item) (bytenr : Nat)
    (hbound : ∀ kk ∈ items.map Item.key, kk.offset < 2 ^ 64) :
    (corrupt_extent fails items bytenr).isSome = true := by
  unfold corrupt_extent
  have hoff : (initialKey bytenr).offset < 2 ^ 64 := by
    show (2 ^ 64 - 1 : Nat) < 2 ^ 64
    decide
  have hmeas : measureKey (initialKey bytenr) < initFuel := by
    show (255 * 2 ^ 64 + (2 ^ 64 - 1) : Nat) < 255 * 2 ^ 64 + 2 ^ 64
    decide
  have h := scanLoop_isSome fails bytenr initFuel (initialKey bytenr) items []
    hbound rfl hoff hmeas
  obtain ⟨r, hr⟩ := Option.isSome_iff_exists.mp h
  rw [hr]
  simp

/-- C6 witness: the scan over a two-record leaf completes. -/
theorem corrupt_extent_terminates_witness :
    (corrupt_extent (fun _ => false)
      [⟨⟨100, 168, 50⟩, [1]⟩, ⟨⟨100, 176, 2⟩, [2]⟩] 100).isSome = true :=
  corrupt_extent_terminates (fun _ => false)
    [⟨⟨100, 168, 50⟩, [1]⟩, ⟨⟨100, 176, 2⟩, [2]⟩] 100 (by decide)

/-- C6 counterexample: on a leaf with records of two different types under one
objectid, the successive search-key offsets are 2^64-1, then 1, then 49 — not
a strictly decreasing sequence, even though the scan terminates. -/
theorem corrupt_extent_offsets_not_decreasing :
    searchOffsets (eventsOfE (corrupt_extent (fun _ => false)
        [⟨⟨100, 168, 50⟩, [1]⟩, ⟨⟨100, 176, 2⟩, [2]⟩] 100)) =
      [2 ^ 64 - 1, 1, 49] ∧
    ¬ List.Chain' (fun a b => b < a)
      (searchOffsets (eventsOfE (corrupt_extent (fun _ => false)
        [⟨⟨100, 168, 50⟩, [1]⟩, ⟨⟨100, 176, 2⟩, [2]⟩] 100))) := by
  constructor
  · decide
  · intro h
    have h2 : searchOffsets (eventsOfE (corrupt_extent (fun _ => false)
        [⟨⟨100, 168, 50⟩, [1]⟩, ⟨⟨100, 176, 2⟩, [2]⟩] 100)) =
        [2 ^ 64 - 1, 1, 49] := by decide
    rw [h2] at h
    simp [List.chain'_cons] at h

/-- C3 (amended): at the end of each iteration the key offset is decremented
by 1, saturating at 0, and the loop stops at this step exactly when the
resulting offset is 0 — that is, when the offset before the decrement was 0
or 1.  A decrement from 1 to 0 is therefore NOT followed by another search. -/
theorem stepKey_stops_iff (k : ItemKey) :
    (stepKey k = none ↔ k.offset ≤ 1) ∧
    (2 ≤ k.offset → stepKey k = some ⟨k.objectid, k.type, k.offset - 1⟩) := by
  constructor
  · constructor
    · intro h
      simp only [stepKey] at h
      split at h
      · rename_i hc
        omega
      · simp at h
    · intro h
      simp only [stepKey]
      rw [if_pos (by omega)]
  · intro h
    simp only [stepKey]
    rw [if_neg (by omega)]

/-- C3 witness: at offset 5 the loop continues with offset 4. -/
theorem stepKey_stops_iff_witness :
    (stepKey ⟨7, 168, 5⟩ = none ↔ (5 : Nat) ≤ 1) ∧
    stepKey ⟨7, 168, 5⟩ = some ⟨7, 168, 4⟩ :=
  ⟨(stepKey_stops_iff ⟨7, 168, 5⟩).1,
   (stepKey_stops_iff ⟨7, 168, 5⟩).2 (by decide)⟩

/-- C3 counterexample: scanning a leaf whose only record sits at offset 1, the
record is visited and zeroed, the offset is decremented from 1 to 0, and the
loop stops immediately: the whole run performs exactly one search (at the
initial offset 2^64-1) and none at offset 0, refuting the claim that a
decrement from 1 to 0 is followed by one more search at offset 0. -/
theorem corrupt_extent_no_search_after_one :
    eventsOfE (corrupt_extent (fun _ => false) [⟨⟨100, 168, 1⟩, [5]⟩] 100) =
      [EEvent.searchE (initialKey 100) 1, EEvent.visitE 0 ⟨100, 168, 1⟩,
       EEvent.commitE, EEvent.closeE] ∧
    searchOffsets (eventsOfE (corrupt_extent (fun _ => false)
      [⟨⟨100, 168, 1⟩, [5]⟩] 100)) = [2 ^ 64 - 1] := by
  constructor
  · decide
  · decide

/-! The mirror loop in closed form. -/

/-- Master lemma for the mirror loop: starting at mirror m with n further
mirrors to go (m + n = num_copies) and every mirror resolvable, the loop
returns exactly the per-mirror event blocks and the per-mirror disk updates,
in increasing mirror order. -/
theorem mirrorLoop_master (w : MWorld) (len copy : Nat) :
    ∀ (n m fuel : Nat) (disk : Nat × Nat → List Nat),
      1 ≤ m → m + n = w.numCopies → n < fuel →
      (∀ j : Nat, j ≤ w.numCopies → 1 ≤ j → (w.stripeOf j).isSome = true) →
      mirrorLoop w len copy fuel m disk =
        some (runEvents w copy m (n + 1), runDisk w len copy m (n + 1) disk) := by
  intro n
  induction n with
  | zero =>
    intro m fuel disk hm hN hf htot
    obtain ⟨fuel, rfl⟩ : ∃ f, fuel = f + 1 := ⟨fuel - 1, by omega⟩
    obtain ⟨⟨dev, phys⟩, hst⟩ :=
      Option.isSome_iff_exists.mp (htot m (by omega) hm)
    simp only [mirrorLoop, hst]
    by_cases h1 : w.numCopies = 1
    · rw [if_pos h1]
      simp [runEvents, runDisk, stepEvents, stepDisk, hst]
    · rw [if_neg h1, if_pos (by omega)]
      simp [runEvents, runDisk, stepEvents, stepDisk, hst]
  | succ n ih =>
    intro m fuel disk hm hN hf htot
    obtain ⟨fuel, rfl⟩ : ∃ f, fuel = f + 1 := ⟨fuel - 1, by omega⟩
    obtain ⟨⟨dev, phys⟩, hst⟩ :=
      Option.isSome_iff_exists.mp (htot m (by omega) hm)
    simp only [mirrorLoop, hst]
    rw [if_neg (by omega), if_neg (by omega)]
    have hstep : (if (copy = 0 ∨ m = copy) ∧ ¬w.writeFails (dev, phys) = true
        then (fun q => if q = (dev, phys) then List.replicate len 0 else disk q)
        else disk) = stepDisk w len copy m disk := by
      simp [stepDisk, hst]
    rw [hstep, ih (m + 1) fuel (stepDisk w len copy m disk) (by omega) (by omega)
      (by omega) htot]
    have hev : stepEvents w copy m = MEvent.mapE m dev phys ::
        (if copy = 0 ∨ m = copy then
          [MEvent.readE m dev phys (!w.readFails (dev, phys)),
           MEvent.writeE m dev phys (!w.writeFails (dev, phys)),
           MEvent.fsyncE m dev]
        else []) := by
      simp [stepEvents, hst]
    rw [show runEvents w copy m (n + 1 + 1) =
        stepEvents w copy m ++ runEvents w copy (m + 1) (n + 1) from rfl,
      show runDisk w len copy m (n + 1 + 1) disk =
        runDisk w len copy (m + 1) (n + 1) (stepDisk w len copy m disk) from rfl,
      hev]
    simp

/-- The map (stripe-resolution) events cover every mirror in increasing
order, whatever the copy selector and failure pattern. -/
theorem mapMirrors_run (w : MWorld) (copy : Nat) :
    ∀ (n m : Nat), (∀ j : Nat, m ≤ j → j < m + n → (w.stripeOf j).isSome = true) →
      mapMirrors (runEvents w copy m n) = mirrorSeq m n := by
  intro n
  induction n with
  | zero => intro m _; rfl
  | succ n ih =>
    intro m htot
    obtain ⟨⟨dev, phys⟩, hst⟩ :=
      Option.isSome_iff_exists.mp (htot m (Nat.le_refl m) (by omega))
    have hstep : mapMirrors (stepEvents w copy m) = [m] := by
      by_cases hc : copy = 0 ∨ m = copy
      · simp [mapMirrors, stepEvents, hst, hc]
      · simp [mapMirrors, stepEvents, hst, hc]
    have hrest := ih (m + 1) (fun j h1 h2 => htot j (by omega) (by omega))
    simp only [runEvents, mapMirrors, List.filterMap_append] at hstep hrest ⊢
    rw [hstep, hrest]
    rfl

/-- With the copy selector unset, the read events cover every mirror in
increasing order. -/
theorem readMirrors_run (w : MWorld) :
    ∀ (n m : Nat), (∀ j : Nat, m ≤ j → j < m + n → (w.stripeOf j).isSome = true) →
      readMirrors (runEvents w 0 m n) = mirrorSeq m n := by
  intro n
  induction n with
  | zero => intro m _; rfl
  | succ n ih =>
    intro m htot
    obtain ⟨⟨dev, phys⟩, hst⟩ :=
      Option.isSome_iff_exists.mp (htot m (Nat.le_refl m) (by omega))
    have hstep : readMirrors (stepEvents w 0 m) = [m] := by
      simp [readMirrors, stepEvents, hst]
    have hrest := ih (m + 1) (fun j h1 h2 => htot j (by omega) (by omega))
    simp only [runEvents, readMirrors, List.filterMap_append] at hstep hrest ⊢
    rw [hstep, hrest]
    rfl

/-- With the copy selector unset, the write-back events cover every mirror in
increasing order. -/
theorem writeMirrors_run (w : MWorld) :
    ∀ (n m : Nat), (∀ j : Nat, m ≤ j → j < m + n → (w.stripeOf j).isSome = true) →
      writeMirrors (runEvents w 0 m n) = mirrorSeq m n := by
  intro n
  induction n with
  | zero => intro m _; rfl
  | succ n ih =>
    intro m htot
    obtain ⟨⟨dev, phys⟩, hst⟩ :=
      Option.isSome_iff_exists.mp (htot m (Nat.le_refl m) (by omega))
    have hstep : writeMirrors (stepEvents w 0 m) = [m] := by
      simp [writeMirrors, stepEvents, hst]
    have hrest := ih (m + 1) (fun j h1 h2 => htot j (by omega) (by omega))
    simp only [runEvents, writeMirrors, List.filterMap_append] at hstep hrest ⊢
    rw [hstep, hrest]
    rfl

/-- With the copy selector unset, the fsync events cover every mirror in
increasing order. -/
theorem fsyncMirrors_run (w : MWorld) :
    ∀ (n m : Nat), (∀ j : Nat, m ≤ j → j < m + n → (w.stripeOf j).isSome = true) →
      fsyncMirrors (runEvents w 0 m n) = mirrorSeq m n := by
  intro n
  induction n with
  | zero => intro m _; rfl
  | succ n ih =>
    intro m htot
    obtain ⟨⟨dev, phys⟩, hst⟩ :=
      Option.isSome_iff_exists.mp (htot m (Nat.le_refl m) (by omega))
    have hstep : fsyncMirrors (stepEvents w 0 m) = [m] := by
      simp [fsyncMirrors, stepEvents, hst]
    have hrest := ih (m + 1) (fun j h1 h2 => htot j (by omega) (by omega))
    simp only [runEvents, fsyncMirrors, List.filterMap_append] at hstep hrest ⊢
    rw [hstep, hrest]
    rfl

/-- Past the selected copy, no further iteration touches the disk. -/
theorem runDisk_high (w : MWorld) (len k : Nat) (hk : 1 ≤ k) :
    ∀ (n m : Nat) (disk : Nat × Nat → List Nat), k < m →
      runDisk w len k m n disk = disk := by
  intro n
  induction n with
  | zero => intro m disk _; rfl
  | succ n ih =>
    intro m disk hm
    have hid : stepDisk w len k m disk = disk := by
      rcases hst : w.stripeOf m with - | ⟨dev, phys⟩
      · simp [stepDisk, hst]
      · have hcond : ¬((k = 0 ∨ m = k) ∧ ¬w.writeFails (dev, phys) = true) := by
          rintro ⟨hc, -⟩
          rcases hc with hc | hc
          · omega
          · omega
        simp only [stepDisk, hst]
        rw [if_neg hcond]
    simp only [runDisk, hid]
    exact ih (m + 1) disk (by omega)

/-- Running the loop across the selected copy k writes zeros exactly at the
physical location of mirror k and leaves every other location untouched. -/
theorem runDisk_pointwise (w : MWorld) (len k dev phys : Nat)
    (hsk : w.stripeOf k = some (dev, phys))
    (hwf : w.writeFails (dev, phys) = false) (hk1 : 1 ≤ k) :
    ∀ (n m : Nat) (disk : Nat × Nat → List Nat), m ≤ k → k < m + n →
      runDisk w len k m n disk =
        fun q => if q = (dev, phys) then List.replicate len 0 else disk q := by
  intro n
  induction n with
  | zero => intro m disk h1 h2; omega
  | succ n ih =>
    intro m disk h1 h2
    by_cases hm : m = k
    · subst hm
      have hstep : stepDisk w len m m disk =
          fun q => if q = (dev, phys) then List.replicate len 0 else disk q := by
        simp [stepDisk, hsk, hwf]
      simp only [runDisk, hstep]
      exact runDisk_high w len m hk1 n (m + 1) _ (by omega)
    · have hid : stepDisk w len k m disk = disk := by
        rcases hst : w.stripeOf m with - | ⟨dev2, phys2⟩
        · simp [stepDisk, hst]
        · have hcond : ¬((k = 0 ∨ m = k) ∧ ¬w.writeFails (dev2, phys2) = true) := by
            rintro ⟨hc, -⟩
            rcases hc with hc | hc
            · omega
            · omega
          simp only [stepDisk, hst]
          rw [if_neg hcond]
      simp only [runDisk, hid]
      exact ih (m + 1) disk (by omega) (by omega)

/-- C2: for a logical address with N resolvable mirrors (N at least 1, mirror
count stable for the call) and the target-mirror selector unset (zero), the
mirror corrupter reads, zeroes, writes back and flushes each of the N physical
mirror locations exactly once, visiting them in increasing mirror-number order
starting at 1, and stops after mirror N. -/
theorem debug_corrupt_block_all_mirrors (w : MWorld)
    (disk0 : Nat × Nat → List Nat) (len : Nat)
    (halloc : w.allocOk = true) (hN : 1 ≤ w.numCopies)
    (htot : ∀ j : Nat, j ≤ w.numCopies → 1 ≤ j → (w.stripeOf j).isSome = true) :
    AllMirrorsOnce w disk0 len := by
  have hmaster := mirrorLoop_master w len 0 (w.numCopies - 1) 1 (w.numCopies + 2)
    disk0 (Nat.le_refl 1) (by omega) (by omega) htot
  rw [show w.numCopies - 1 + 1 = w.numCopies from by omega] at hmaster
  refine ⟨runDisk w len 0 1 w.numCopies disk0, ?_, ?_, ?_, ?_, ?_⟩
  · unfold debug_corrupt_block
    rw [if_pos halloc]
    exact hmaster
  · exact mapMirrors_run w 0 w.numCopies 1 (fun j h1 h2 => htot j (by omega) h1)
  · exact readMirrors_run w w.numCopies 1 (fun j h1 h2 => htot j (by omega) h1)
  · exact writeMirrors_run w w.numCopies 1 (fun j h1 h2 => htot j (by omega) h1)
  · exact fsyncMirrors_run w w.numCopies 1 (fun j h1 h2 => htot j (by omega) h1)

/-- C2 witness: the two-mirror world with no failures. -/
theorem debug_corrupt_block_all_mirrors_witness :
    AllMirrorsOnce wOk disk7 2 :=
  debug_corrupt_block_all_mirrors wOk disk7 2 rfl (by decide) (by decide)

/-- C1 (amended): a failed physical read or write-back is ignored — the C code
assigns the read return to ret without testing it and discards the write
return — so the run continues through the remaining mirrors, still issuing
every write and flush, and completes normally; only a mirror-mapping failure
(BUG_ON) or a failed buffer allocation aborts. -/
theorem debug_corrupt_block_ignores_io_failures (w : MWorld)
    (disk0 : Nat × Nat → List Nat) (len : Nat)
    (halloc : w.allocOk = true) (hN : 1 ≤ w.numCopies)
    (htot : ∀ j : Nat, j ≤ w.numCopies → 1 ≤ j → (w.stripeOf j).isSome = true) :
    IgnoresIOFailures w disk0 len := by
  have hmaster := mirrorLoop_master w len 0 (w.numCopies - 1) 1 (w.numCopies + 2)
    disk0 (Nat.le_refl 1) (by omega) (by omega) htot
  rw [show w.numCopies - 1 + 1 = w.numCopies from by omega] at hmaster
  refine ⟨runEvents w 0 1 w.numCopies, runDisk w len 0 1 w.numCopies disk0,
    ?_, ?_, ?_⟩
  · unfold debug_corrupt_block
    rw [if_pos halloc]
    exact hmaster
  · exact mapMirrors_run w 0 w.numCopies 1 (fun j h1 h2 => htot j (by omega) h1)
  · exact writeMirrors_run w w.numCopies 1 (fun j h1 h2 => htot j (by omega) h1)

/-- C1 amended-claim witness: even with the read of mirror 1 failing, both
mirrors are mapped and written. -/
theorem debug_corrupt_block_ignores_io_failures_witness :
    IgnoresIOFailures wReadFail disk7 2 :=
  debug_corrupt_block_ignores_io_failures wReadFail disk7 2 rfl
    (by decide) (by decide)

/-- C1 counterexample: in the two-mirror world where the physical read of
mirror 1 fails, the run does not abort and does not stop at mirror 1: it
completes (isSome) and its event log shows the failed read (ok = false)
followed by the full visit of mirror 2 — refuting the claim that a read
failure propagates and aborts with no continuation to further mirrors. -/
theorem debug_corrupt_block_read_failure_continues :
    (debug_corrupt_block wReadFail disk7 2 0).isSome = true ∧
    eventsOfM (debug_corrupt_block wReadFail disk7 2 0) =
      [MEvent.mapE 1 3 100, MEvent.readE 1 3 100 false,
       MEvent.writeE 1 3 100 true, MEvent.fsyncE 1 3,
       MEvent.mapE 2 3 200, MEvent.readE 2 3 200 true,
       MEvent.writeE 2 3 200 true, MEvent.fsyncE 2 3] := by
  constructor
  · decide
  · decide

/-- C7: for target mirror k with 1 ≤ k ≤ N, the k-th physical location becomes
all zero bytes of the block length and every other physical location is
bit-for-bit unchanged. -/
theorem debug_corrupt_block_frame (w : MWorld) (disk0 : Nat × Nat → List Nat)
    (len k dev phys : Nat)
    (halloc : w.allocOk = true) (hk1 : 1 ≤ k) (hkN : k ≤ w.numCopies)
    (htot : ∀ j : Nat, j ≤ w.numCopies → 1 ≤ j → (w.stripeOf j).isSome = true)
    (hsk : w.stripeOf k = some (dev, phys))
    (hwf : w.writeFails (dev, phys) = false) :
    FrameOnlyTarget w disk0 len k dev phys := by
  have hmaster := mirrorLoop_master w len k (w.numCopies - 1) 1 (w.numCopies + 2)
    disk0 (Nat.le_refl 1) (by omega) (by omega) htot
  rw [show w.numCopies - 1 + 1 = w.numCopies from by omega] at hmaster
  have hpt := runDisk_pointwise w len k dev phys hsk hwf hk1 w.numCopies 1
    disk0 hk1 (by omega)
  refine ⟨runEvents w k 1 w.numCopies, ?_, ?_, ?_⟩
  · unfold debug_corrupt_block
    rw [if_pos halloc]
    exact hmaster
  · rw [hpt]
    simp
  · intro q hq
    rw [hpt]
    simp [hq]

/-- C7 witness: selecting copy 2 in the two-mirror world zeroes physical
(3, 200) and leaves (3, 100) unchanged. -/
theorem debug_corrupt_block_frame_witness :
    FrameOnlyTarget wOk disk7 2 2 3 200 :=
  debug_corrupt_block_frame wOk disk7 2 2 3 200 rfl (by decide) (by decide)
    (by decide) (by decide) (by decide)

/-- C10: with the extent flag given but no logical address (so logical stays
0), main prints usage and exits 1 before the filesystem is opened, for every
argument count, copy value and stack-garbage value of extent_rec — the
extent-metadata operation can never run without a nonzero logical address. -/
theorem mainSelect_usage_without_logical :
    ∀ (argCount : Nat) (copy : Int) (g : Bool),
      mainSelect argCount 0 copy true g = MainAction.usageExit := by
  intro a c g
  by_cases h : a = 0 <;> simp [mainSelect, h]

/-- C9 (code bug): extent_rec is declared without an initializer and only the
-e branch ever stores to it, so when -e is absent the operation choice reads
the uninitialized value: with identical arguments, initial garbage true
selects the extent-metadata operation and initial garbage false selects the
mirror operation — the selection is not determined by the -e flag alone. -/
theorem mainSelect_depends_on_uninitialized :
    mainSelect 1 4096 0 false true = MainAction.run true 4096 0 ∧
    mainSelect 1 4096 0 false false = MainAction.run false 4096 0 := by
  constructor
  · decide
  · decide

end Btrfs
